import Mathlib

/-!
Verification development for the photo-coloring-converter pipeline.

The pixel pipeline (`image_processor_js.js`) and the vector extractor
(the SVG generator source) are embedded shallowly:

* a pixel buffer is a `width`, `height` and a flat channel map `ℕ → ℕ`
  (index `(y * width + x) * 4 + c`, channels R,G,B,A), mirroring
  JavaScript `ImageData`;
* every JavaScript loop becomes a fold over the corresponding index list,
  in the same iteration order;
* `Math.sqrt` appears in the source only on the left of comparisons
  against non-negative quantities, so squared magnitudes and squared
  tolerances replace it everywhere (`sqrt s > t ↔ s > t²` for `t ≥ 0`);
  rational arithmetic stands in for JavaScript floats;
* the two recursions that are not structurally bounded (`douglasPeucker`
  and the tracer's stack loop) take an explicit recursion bound; the
  bound chosen by the wrapper is large enough that the cut-off branch is
  reached only where the original loop would not terminate at all
  (noted at each definition).
-/

set_option maxRecDepth 20000

/-! ## Batch processing (`processImages`, image_processor_js.js lines 44-77) -/

inductive ProcessingError where
  | invalidInput
  | loadFailure
  deriving DecidableEq, Repr

structure InputImage where
  width : ℕ
  height : ℕ
  deriving DecidableEq, Repr

structure ImageResult where
  width : ℕ
  height : ℕ
  deriving DecidableEq, Repr

/-- Modelled from the spec: `processSingleImage` hands the file to the
browser's decoder and canvas, which are outside this repository; the spec
says a zero-area buffer fails with `InvalidInputError` before any stage
runs, and any other decoded image completes the pipeline.  Only the
success/failure shape matters for the batch-policy claim. -/
def processSingleImage (img : InputImage) : Except ProcessingError ImageResult :=
  if img.width = 0 ∨ img.height = 0 then .error .invalidInput
  else .ok ⟨img.width, img.height⟩

/-- The `for` loop of `processImages`: each `await processSingleImage`
either pushes its result or throws; the surrounding `try`/`catch`
re-throws, so the first per-image error becomes the batch's error and the
accumulated results are discarded. -/
def processImagesGo (step : InputImage → Except ProcessingError ImageResult) :
    List InputImage → List ImageResult → Except ProcessingError (List ImageResult)
  | [], acc => .ok acc.reverse
  | f :: rest, acc =>
    match step f with
    | .ok r => processImagesGo step rest (r :: acc)
    | .error e => .error e

/-- `processImages` (image_processor_js.js lines 44-77). -/
def processImages (step : InputImage → Except ProcessingError ImageResult)
    (files : List InputImage) : Except ProcessingError (List ImageResult) :=
  processImagesGo step files []

theorem processImagesGo_ok (step : InputImage → Except ProcessingError ImageResult) :
    ∀ (files : List InputImage) (acc : List ImageResult),
      (∀ f ∈ files, (step f).isOk = true) →
      processImagesGo step files acc =
        .ok (acc.reverse ++ files.filterMap fun f => (step f).toOption) := by
  intro files
  induction files with
  | nil => intro acc _; simp [processImagesGo]
  | cons f rest ih =>
    intro acc hok
    have hf : (step f).isOk = true := hok f (by simp)
    match hstep : step f with
    | .error e => rw [hstep] at hf; simp [Except.isOk, Except.toBool] at hf
    | .ok r =>
      simp only [processImagesGo, hstep, List.filterMap_cons, Except.toOption]
      rw [ih (r :: acc) (fun g hg => hok g (by simp [hg]))]
      simp [Except.toOption]

theorem processImagesGo_error (step : InputImage → Except ProcessingError ImageResult)
    (img : InputImage) (e : ProcessingError) :
    ∀ (pre post : List InputImage) (acc : List ImageResult),
      (∀ f ∈ pre, (step f).isOk = true) → step img = .error e →
      processImagesGo step (pre ++ img :: post) acc = .error e := by
  intro pre
  induction pre with
  | nil => intro post acc _ himg; simp [processImagesGo, himg]
  | cons f rest ih =>
    intro post acc hok himg
    have hf : (step f).isOk = true := hok f (by simp)
    match hstep : step f with
    | .error e' => rw [hstep] at hf; simp [Except.isOk, Except.toBool] at hf
    | .ok r =>
      simp only [List.cons_append, processImagesGo, hstep]
      exact ih post (r :: acc) (fun g hg => hok g (by simp [hg])) himg

/-- C1, counterexample.  In a batch of three images whose second is
zero-dimensional, `processImages` propagates the per-image error out of
the batch call (the `catch` block re-throws): the call "raises" and no
partial result set of two successes plus an error record is produced. -/
theorem c1_counterexample :
    processImages processSingleImage [⟨10, 10⟩, ⟨0, 10⟩, ⟨10, 10⟩] =
      .error .invalidInput ∧
    (processImages processSingleImage [⟨10, 10⟩, ⟨0, 10⟩, ⟨10, 10⟩]).isOk = false := by
  constructor <;> rfl

/-- C1 (corrected).  The failure of a single image aborts the whole
batch: if every image before `img` succeeds and `img` fails, the batch
call fails with `img`'s error and discards the earlier results; only
when every image succeeds does the caller receive the result list (in
order, one entry per image).  No per-image error record is kept. -/
theorem c1_batch_propagation (step : InputImage → Except ProcessingError ImageResult) :
    (∀ files : List InputImage, (∀ f ∈ files, (step f).isOk = true) →
      processImages step files = .ok (files.filterMap fun f => (step f).toOption)) ∧
    (∀ (pre post : List InputImage) (img : InputImage) (e : ProcessingError),
      (∀ f ∈ pre, (step f).isOk = true) → step img = .error e →
      processImages step (pre ++ img :: post) = .error e) := by
  constructor
  · intro files hok
    rw [processImages, processImagesGo_ok step files [] hok]
    simp
  · intro pre post img e hok himg
    exact processImagesGo_error step img e pre post [] hok himg

/-- C1, witness for `c1_batch_propagation` at a concrete batch. -/
theorem c1_witness :
    processImages processSingleImage [⟨2, 2⟩, ⟨3, 1⟩] =
      .ok [⟨2, 2⟩, ⟨3, 1⟩] ∧
    processImages processSingleImage ([⟨2, 2⟩] ++ ⟨0, 5⟩ :: [⟨4, 4⟩]) =
      .error .invalidInput := by
  refine ⟨?_, ?_⟩
  · exact (c1_batch_propagation processSingleImage).1 [⟨2, 2⟩, ⟨3, 1⟩] (by decide)
  · exact (c1_batch_propagation processSingleImage).2 [⟨2, 2⟩] [⟨4, 4⟩] ⟨0, 5⟩
      ProcessingError.invalidInput (by decide) rfl

/-! ## Pixel buffers and edge detection (`detectEdges`, image_processor_js.js lines 291-332) -/

/-- JavaScript `ImageData`: a flat RGBA channel array indexed by
`(y * width + x) * 4 + c`.  A freshly allocated `ImageData` is
zero-filled, so the functional translation of "allocate, then write some
indices" is "the written value where a write happened, `0` elsewhere". -/
structure ImageData where
  width : ℕ
  height : ℕ
  data : ℕ → ℕ

/-- The Sobel horizontal kernel, row-major as in the source. -/
def sobelX : List ℤ := [-1, 0, 1, -2, 0, 2, -1, 0, 1]

/-- The Sobel vertical kernel, row-major as in the source. -/
def sobelY : List ℤ := [-1, -2, -1, 0, 0, 0, 1, 2, 1]

/-- The double kernel loop of `detectEdges`: accumulates `pixelX` and
`pixelY` over `ky, kx ∈ {-1,0,1}` (here `j = ky + 1`, `i = kx + 1`),
reading the red channel of the neighbour `(x + kx, y + ky)`. -/
def sobelPair (data : ℕ → ℕ) (wdt x y : ℕ) : ℤ × ℤ :=
  (List.range 3).foldl (fun acc j =>
    (List.range 3).foldl (fun acc2 i =>
      let intensity : ℤ := data (((y + j - 1) * wdt + (x + i - 1)) * 4)
      (acc2.1 + intensity * sobelX[j * 3 + i]!,
       acc2.2 + intensity * sobelY[j * 3 + i]!)) acc) (0, 0)

/-- `detectEdges`.  The source allocates a zero-filled result buffer and
writes only the pixels with `1 ≤ x < width-1`, `1 ≤ y < height-1`; the
border ring keeps the allocation value `0`.  The source thresholds
`sqrt(gx² + gy²) > edgeThreshold`; with a natural-number threshold that
is exactly `gx² + gy² > threshold²`. -/
def detectEdges (threshold : ℕ) (img : ImageData) : ImageData where
  width := img.width
  height := img.height
  data := fun idx =>
    let c := idx % 4
    let p := idx / 4
    let x := p % img.width
    let y := p / img.width
    if 1 ≤ x ∧ x + 1 < img.width ∧ 1 ≤ y ∧ y + 1 < img.height then
      if c = 3 then 255
      else
        let g := sobelPair img.data img.width x y
        if g.1 ^ 2 + g.2 ^ 2 > (threshold : ℤ) ^ 2 then 0 else 255
    else 0

/-- C2, counterexample.  On a 3×3 buffer the corner pixel `(0,0)` of the
edge-detection output keeps the freshly allocated value `0` (fully
transparent black); the border ring is never set to background `255`. -/
theorem c2_counterexample :
    ¬ ((detectEdges 50 ⟨3, 3, fun _ => 0⟩).data ((0 * 3 + 0) * 4) = 255) := by
  decide

/-- Decomposition of a flat RGBA index back into its coordinates. -/
theorem rgbaIndex_decompose (wdt x y c : ℕ) (hx : x < wdt) (hc : c < 4) :
    ((y * wdt + x) * 4 + c) % 4 = c ∧
    ((y * wdt + x) * 4 + c) / 4 = y * wdt + x ∧
    (y * wdt + x) % wdt = x ∧
    (y * wdt + x) / wdt = y := by
  have h4 : ((y * wdt + x) * 4 + c) % 4 = c := by
    rw [Nat.mul_comm (y * wdt + x) 4, Nat.mul_add_mod]
    exact Nat.mod_eq_of_lt hc
  have h4' : ((y * wdt + x) * 4 + c) / 4 = y * wdt + x := by
    rw [Nat.mul_comm (y * wdt + x) 4, Nat.mul_add_div (by norm_num)]
    simp [Nat.div_eq_of_lt hc]
  have hw : (y * wdt + x) % wdt = x := by
    rw [Nat.add_comm, Nat.add_mul_mod_self_right]
    exact Nat.mod_eq_of_lt hx
  have hw' : (y * wdt + x) / wdt = y := by
    have hwpos : 0 < wdt := Nat.lt_of_le_of_lt (Nat.zero_le x) hx
    rw [Nat.add_comm, Nat.add_mul_div_right _ _ hwpos, Nat.div_eq_of_lt hx]
    exact Nat.zero_add y
  exact ⟨h4, h4', hw, hw'⟩

/-- The horizontal Sobel kernel `[-1,0,1;-2,0,2;-1,0,1]` written out
pointwise on the red channel, as the spec states it. -/
def sobelGXSpec (data : ℕ → ℕ) (wdt x y : ℕ) : ℤ :=
  (data (((y - 1) * wdt + (x + 1)) * 4) + 2 * data ((y * wdt + (x + 1)) * 4) +
     data (((y + 1) * wdt + (x + 1)) * 4) : ℤ) -
  (data (((y - 1) * wdt + (x - 1)) * 4) + 2 * data ((y * wdt + (x - 1)) * 4) +
     data (((y + 1) * wdt + (x - 1)) * 4) : ℤ)

/-- The vertical Sobel kernel `[-1,-2,-1;0,0,0;1,2,1]` written out
pointwise on the red channel, as the spec states it. -/
def sobelGYSpec (data : ℕ → ℕ) (wdt x y : ℕ) : ℤ :=
  (data (((y + 1) * wdt + (x - 1)) * 4) + 2 * data (((y + 1) * wdt + x) * 4) +
     data (((y + 1) * wdt + (x + 1)) * 4) : ℤ) -
  (data (((y - 1) * wdt + (x - 1)) * 4) + 2 * data (((y - 1) * wdt + x) * 4) +
     data (((y - 1) * wdt + (x + 1)) * 4) : ℤ)

/-- The source's kernel loop computes exactly the two written-out Sobel
responses. -/
theorem sobelPair_eq (data : ℕ → ℕ) (wdt x y : ℕ) :
    sobelPair data wdt x y = (sobelGXSpec data wdt x y, sobelGYSpec data wdt x y) := by
  have e0 : ∀ a : ℕ, a + 0 - 1 = a - 1 := fun a => by omega
  have e1 : ∀ a : ℕ, a + 1 - 1 = a := fun a => by omega
  have e2 : ∀ a : ℕ, a + 2 - 1 = a + 1 := fun a => by omega
  have h3 : List.range 3 = [0, 1, 2] := rfl
  simp only [sobelPair, h3, List.foldl_cons, List.foldl_nil, e0, e1, e2]
  norm_num [sobelX, sobelY, sobelGXSpec, sobelGYSpec]
  constructor <;> ring

/-- C2 (corrected).  For every interior pixel the edge-detection output
is `0` (ink) on the colour channels exactly when the squared Sobel
magnitude on the red channel exceeds the squared threshold and `255`
otherwise (alpha is `255`); but every pixel of the 1-pixel border ring is
left at the freshly allocated value `0`, not set to background `255`. -/
theorem c2_edge_output (t : ℕ) (img : ImageData) (x y c : ℕ)
    (hc : c < 4) (hxw : x < img.width) (_hyh : y < img.height) :
    (1 ≤ x → x + 1 < img.width → 1 ≤ y → y + 1 < img.height →
      (detectEdges t img).data ((y * img.width + x) * 4 + c) =
        if c = 3 then 255
        else
          if (sobelGXSpec img.data img.width x y) ^ 2 +
              (sobelGYSpec img.data img.width x y) ^ 2 > (t : ℤ) ^ 2 then 0
          else 255) ∧
    ((x = 0 ∨ x + 1 = img.width ∨ y = 0 ∨ y + 1 = img.height) →
      (detectEdges t img).data ((y * img.width + x) * 4 + c) = 0) := by
  obtain ⟨hmod, hdiv, hmodw, hdivw⟩ := rgbaIndex_decompose img.width x y c hxw hc
  have hkey : (detectEdges t img).data ((y * img.width + x) * 4 + c) =
      if 1 ≤ x ∧ x + 1 < img.width ∧ 1 ≤ y ∧ y + 1 < img.height then
        if c = 3 then 255
        else
          if (sobelPair img.data img.width x y).1 ^ 2 +
              (sobelPair img.data img.width x y).2 ^ 2 > (t : ℤ) ^ 2 then 0
          else 255
      else 0 := by
    simp only [detectEdges]
    rw [hmod, hdiv, hmodw, hdivw]
  constructor
  · intro h1 h2 h3 h4
    rw [hkey, if_pos ⟨h1, h2, h3, h4⟩, sobelPair_eq]
  · intro hb
    rw [hkey, if_neg]
    rintro ⟨h1, h2, h3, h4⟩
    omega

/-- C2, witness for `c2_edge_output`: on a 3×3 all-black buffer the sole
interior pixel gets the thresholded value and a border pixel gets `0`. -/
theorem c2_witness :
    (detectEdges 50 ⟨3, 3, fun _ => 0⟩).data ((1 * 3 + 1) * 4) =
      (if (0 : ℕ) = 3 then 255
       else
         if (sobelGXSpec (fun _ => 0) 3 1 1) ^ 2 +
             (sobelGYSpec (fun _ => 0) 3 1 1) ^ 2 > ((50 : ℕ) : ℤ) ^ 2 then 0
         else 255) ∧
    (detectEdges 50 ⟨3, 3, fun _ => 0⟩).data ((0 * 3 + 0) * 4 + 1) = 0 := by
  constructor
  · have h := (c2_edge_output 50 ⟨3, 3, fun _ => 0⟩ 1 1 0 (by decide) (by decide)
      (by decide)).1 (by decide) (by decide) (by decide) (by decide)
    simpa using h
  · exact (c2_edge_output 50 ⟨3, 3, fun _ => 0⟩ 0 0 1 (by decide) (by decide)
      (by decide)).2 (Or.inl rfl)

/-! ## Morphological operations (image_processor_js.js lines 372-431) -/

/-- The `(2r+1) × (2r+1)` neighbourhood scan of the morphology loops:
red-channel values of the pixels `(x + kx, y + ky)`, `ky, kx ∈ [-r, r]`
(here `j = ky + r`, `i = kx + r`), in the source's iteration order. -/
def neighborhoodValues (data : ℕ → ℕ) (wdt r x y : ℕ) : List ℕ :=
  (List.range (2 * r + 1)).flatMap (fun j =>
    (List.range (2 * r + 1)).map (fun i =>
      data (((y + j - r) * wdt + (x + i - r)) * 4)))

/-- `morphologicalErosion`: per-pixel minimum over the neighbourhood
(`minValue` starts at 255), written only for the radius-inset interior;
all other indices keep the zero-filled allocation value. -/
def morphologicalErosion (r : ℕ) (img : ImageData) : ImageData where
  width := img.width
  height := img.height
  data := fun idx =>
    let c := idx % 4
    let p := idx / 4
    let x := p % img.width
    let y := p / img.width
    if r ≤ x ∧ x + r + 1 ≤ img.width ∧ r ≤ y ∧ y + r + 1 ≤ img.height then
      if c = 3 then 255
      else (neighborhoodValues img.data img.width r x y).foldl min 255
    else 0

/-- `morphologicalDilation`: per-pixel maximum over the neighbourhood
(`maxValue` starts at 0), same interior-only write pattern. -/
def morphologicalDilation (r : ℕ) (img : ImageData) : ImageData where
  width := img.width
  height := img.height
  data := fun idx =>
    let c := idx % 4
    let p := idx / 4
    let x := p % img.width
    let y := p / img.width
    if r ≤ x ∧ x + r + 1 ≤ img.width ∧ r ≤ y ∧ y + r + 1 ≤ img.height then
      if c = 3 then 255
      else (neighborhoodValues img.data img.width r x y).foldl max 0
    else 0

/-- An ink pixel: red channel below 128 after binarization
(`createBinaryMap`'s test, also the spec's glossary). -/
def inkAt (img : ImageData) (x y : ℕ) : Prop :=
  img.data ((y * img.width + x) * 4) < 128

instance (img : ImageData) (x y : ℕ) : Decidable (inkAt img x y) := by
  unfold inkAt; infer_instance

theorem minFold_le_of_mem : ∀ (l : List ℕ) (a v : ℕ), v ∈ l → l.foldl min a ≤ v := by
  intro l
  induction l with
  | nil => intro a v hv; cases hv
  | cons b t ih =>
    intro a v hv
    rcases List.mem_cons.mp hv with h | h
    · subst h
      calc t.foldl min (min a v) ≤ min a v := by
            clear ih hv
            induction t generalizing a v with
            | nil => exact le_refl _
            | cons c t ih2 => exact le_trans (ih2 (min a v) c) (min_le_left _ _)
        _ ≤ v := min_le_right _ _
    · exact ih (min a b) v h

theorem le_maxFold_of_mem : ∀ (l : List ℕ) (a v : ℕ), v ∈ l → v ≤ l.foldl max a := by
  intro l
  induction l with
  | nil => intro a v hv; cases hv
  | cons b t ih =>
    intro a v hv
    rcases List.mem_cons.mp hv with h | h
    · subst h
      calc v ≤ max a v := le_max_right _ _
        _ ≤ t.foldl max (max a v) := by
            clear ih hv
            induction t generalizing a v with
            | nil => exact le_refl _
            | cons c t ih2 => exact le_trans (le_max_left _ _) (ih2 (max a v) c)
    · exact ih (max a b) v h

theorem maxFold_lt : ∀ (l : List ℕ) (a c : ℕ), a < c → (∀ v ∈ l, v < c) →
    l.foldl max a < c := by
  intro l
  induction l with
  | nil => intro a c ha _; exact ha
  | cons b t ih =>
    intro a c ha hall
    exact ih (max a b) c (max_lt ha (hall b (by simp))) fun v hv => hall v (by simp [hv])

theorem mem_neighborhoodValues (data : ℕ → ℕ) (wdt r x y j i : ℕ)
    (hj : j < 2 * r + 1) (hi : i < 2 * r + 1) :
    data (((y + j - r) * wdt + (x + i - r)) * 4) ∈ neighborhoodValues data wdt r x y := by
  unfold neighborhoodValues
  refine List.mem_flatMap.mpr ⟨j, List.mem_range.mpr hj, ?_⟩
  exact List.mem_map.mpr ⟨i, List.mem_range.mpr hi, rfl⟩

theorem neighborhoodValues_shape (data : ℕ → ℕ) (wdt r x y v : ℕ)
    (hv : v ∈ neighborhoodValues data wdt r x y) :
    ∃ j i, j < 2 * r + 1 ∧ i < 2 * r + 1 ∧
      v = data (((y + j - r) * wdt + (x + i - r)) * 4) := by
  unfold neighborhoodValues at hv
  obtain ⟨j, hj, hv⟩ := List.mem_flatMap.mp hv
  obtain ⟨i, hi, hv⟩ := List.mem_map.mp hv
  exact ⟨j, i, List.mem_range.mp hj, List.mem_range.mp hi, hv.symm⟩

/-- C3, counterexample.  On a 1×1 all-background buffer with the
source's morphology radius 2 the whole buffer lies outside the
radius-inset interior, so erosion and dilation both leave it at the
allocation value 0 — ink.  The opening therefore has an ink pixel where
the original buffer has none: its ink support is not contained in the
original's. -/
theorem c3_counterexample :
    inkAt (morphologicalDilation 2 (morphologicalErosion 2 ⟨1, 1, fun _ => 255⟩)) 0 0 ∧
    ¬ inkAt ⟨1, 1, fun _ => 255⟩ 0 0 := by
  constructor <;> decide

/-- C3 (corrected).  Erosion is pointwise below dilation on every
channel index, as claimed.  The claimed inclusion is reversed, however:
since ink is *dark* and erosion takes the minimum, the coded
erosion-then-dilation sequence can only add ink (and the unwritten
radius-wide frame is forced to the ink value 0), so the ink support of
the original buffer is contained in that of `Dilation(Erosion(x))`, not
the other way round. -/
theorem c3_morphology (r : ℕ) (img : ImageData) :
    (∀ idx, (morphologicalErosion r img).data idx ≤ (morphologicalDilation r img).data idx) ∧
    (∀ x y, x < img.width → y < img.height → inkAt img x y →
      inkAt (morphologicalDilation r (morphologicalErosion r img)) x y) := by
  constructor
  · intro idx
    simp only [morphologicalErosion, morphologicalDilation]
    by_cases hin : r ≤ idx / 4 % img.width ∧ idx / 4 % img.width + r + 1 ≤ img.width ∧
        r ≤ idx / 4 / img.width ∧ idx / 4 / img.width + r + 1 ≤ img.height
    · rw [if_pos hin, if_pos hin]
      by_cases hc : idx % 4 = 3
      · rw [if_pos hc, if_pos hc]
      · rw [if_neg hc, if_neg hc]
        have hcen : img.data ((idx / 4 / img.width * img.width + idx / 4 % img.width) * 4) ∈
            neighborhoodValues img.data img.width r (idx / 4 % img.width)
              (idx / 4 / img.width) := by
          have h := mem_neighborhoodValues img.data img.width r (idx / 4 % img.width)
            (idx / 4 / img.width) r r (by omega) (by omega)
          simpa using h
        exact le_trans (minFold_le_of_mem _ 255 _ hcen) (le_maxFold_of_mem _ 0 _ hcen)
    · rw [if_neg hin, if_neg hin]
  · intro x y hx _hy hink
    have h4 : (0 : ℕ) < 4 := by norm_num
    obtain ⟨_, hdiv, hmodw, hdivw⟩ := rgbaIndex_decompose img.width x y 0 hx h4
    rw [Nat.add_zero] at hdiv
    unfold inkAt at hink ⊢
    have hwd : (morphologicalDilation r (morphologicalErosion r img)).width = img.width := rfl
    rw [hwd]
    simp only [morphologicalDilation,
      show (morphologicalErosion r img).width = img.width from rfl,
      show (morphologicalErosion r img).height = img.height from rfl, Nat.mul_mod_left]
    rw [hdiv, hmodw, hdivw]
    by_cases hin : r ≤ x ∧ x + r + 1 ≤ img.width ∧ r ≤ y ∧ y + r + 1 ≤ img.height
    · rw [if_pos hin]
      simp only [if_neg (by norm_num : ¬ (0 : ℕ) = 3)]
      refine maxFold_lt _ 0 128 (by norm_num) ?_
      intro v hv
      obtain ⟨j, i, hj, hi, hveq⟩ := neighborhoodValues_shape _ _ _ _ _ _ hv
      subst hveq
      set qx := x + i - r with hqx
      set qy := y + j - r with hqy
      have hqxw : qx < img.width := by omega
      obtain ⟨_, hdiv2, hmodw2, hdivw2⟩ := rgbaIndex_decompose img.width qx qy 0 hqxw h4
      rw [Nat.add_zero] at hdiv2
      show (morphologicalErosion r img).data ((qy * img.width + qx) * 4) < 128
      simp only [morphologicalErosion, Nat.mul_mod_left]
      rw [hdiv2, hmodw2, hdivw2]
      by_cases hinq : r ≤ qx ∧ qx + r + 1 ≤ img.width ∧ r ≤ qy ∧ qy + r + 1 ≤ img.height
      · rw [if_pos hinq]
        simp only [if_neg (by norm_num : ¬ (0 : ℕ) = 3)]
        have hcenter : img.data ((y * img.width + x) * 4) ∈
            neighborhoodValues img.data img.width r qx qy := by
          have hmem := mem_neighborhoodValues img.data img.width r qx qy
            (y + r - qy) (x + r - qx) (by omega) (by omega)
          have hyy : qy + (y + r - qy) - r = y := by omega
          have hxx : qx + (x + r - qx) - r = x := by omega
          rwa [hyy, hxx] at hmem
        exact lt_of_le_of_lt (minFold_le_of_mem _ 255 _ hcenter) hink
      · rw [if_neg hinq]; norm_num
    · rw [if_neg hin]; norm_num

/-- C3, witness for `c3_morphology` on a 3×3 all-ink buffer with
radius 1. -/
theorem c3_witness :
    (morphologicalErosion 1 ⟨3, 3, fun _ => 0⟩).data 16 ≤
      (morphologicalDilation 1 ⟨3, 3, fun _ => 0⟩).data 16 ∧
    inkAt (morphologicalDilation 1 (morphologicalErosion 1 ⟨3, 3, fun _ => 0⟩)) 0 0 := by
  constructor
  · exact (c3_morphology 1 ⟨3, 3, fun _ => 0⟩).1 16
  · exact (c3_morphology 1 ⟨3, 3, fun _ => 0⟩).2 0 0 (by norm_num) (by norm_num) (by decide)

/-! ## Geometry of the vector extractor (SVG generator source) -/

/-- A path point `{x, y}` with rational coordinates standing in for
JavaScript floats. -/
structure Point where
  x : ℚ
  y : ℚ
  deriving DecidableEq, Repr, Inhabited

/-- `perpendicularDistance`, squared.  The source returns
`sqrt(dx² + dy²)`; every consumer only compares distances with each
other or with a non-negative tolerance, and squaring preserves all those
comparisons, so the embedding works with the square throughout.  The
branch structure (degenerate chord, clamped projection parameter) is the
source's. -/
def perpendicularDistanceSq (point lineStart lineEnd : Point) : ℚ :=
  let A := point.x - lineStart.x
  let B := point.y - lineStart.y
  let C := lineEnd.x - lineStart.x
  let D := lineEnd.y - lineStart.y
  let dot := A * C + B * D
  let lenSq := C * C + D * D
  if lenSq = 0 then A * A + B * B
  else
    let param := dot / lenSq
    let q : ℚ × ℚ :=
      if param < 0 then (lineStart.x, lineStart.y)
      else if param > 1 then (lineEnd.x, lineEnd.y)
      else (lineStart.x + param * C, lineStart.y + param * D)
    let dx := point.x - q.1
    let dy := point.y - q.2
    dx * dx + dy * dy

/-- Squared Euclidean point-to-point distance (the spec's fallback for a
zero-length chord). -/
def pointDistanceSq (p q : Point) : ℚ :=
  (p.x - q.x) ^ 2 + (p.y - q.y) ^ 2

/-- Modelled from the spec's glossary: the squared shortest distance
from a point to the *infinite* line through `a` and `b` (meaningful for
`a ≠ b`), in the Lagrange form `(A·D − B·C)² / (C² + D²)`. -/
def lineDistanceSq (p a b : Point) : ℚ :=
  ((p.x - a.x) * (b.y - a.y) - (p.y - a.y) * (b.x - a.x)) ^ 2 /
    ((b.x - a.x) ^ 2 + (b.y - a.y) ^ 2)

/-- C8, counterexample.  For the point `(2,1)` and the distinct chord
endpoints `(0,0)`, `(1,0)` the projection parameter is `2 > 1`, so the
source clamps to the endpoint and returns the squared distance `2`,
while the infinite line through the endpoints is at squared distance
`1`: the function does not compute the infinite-line distance. -/
theorem c8_counterexample :
    (⟨0, 0⟩ : Point) ≠ ⟨1, 0⟩ ∧
    perpendicularDistanceSq ⟨2, 1⟩ ⟨0, 0⟩ ⟨1, 0⟩ ≠ lineDistanceSq ⟨2, 1⟩ ⟨0, 0⟩ ⟨1, 0⟩ := by
  constructor
  · intro h
    exact absurd (congrArg Point.x h) (by norm_num)
  · simp only [perpendicularDistanceSq, lineDistanceSq]
    norm_num

set_option maxHeartbeats 1600000 in
/-- C8 (corrected).  The computation never divides by zero — the
degenerate branch is taken exactly for coincident endpoints, where the
result is the point-to-point distance to `a`.  For `a ≠ b` the function
computes the distance to the *segment*: the infinite-line distance only
when the projection parameter lies in `[0,1]`, and the distance to the
nearer endpoint when the projection falls outside the chord. -/
theorem c8_perpendicular_distance (p a b : Point) :
    (a = b → perpendicularDistanceSq p a b = pointDistanceSq p a) ∧
    (a ≠ b →
      perpendicularDistanceSq p a b =
        if ((p.x - a.x) * (b.x - a.x) + (p.y - a.y) * (b.y - a.y)) /
            ((b.x - a.x) * (b.x - a.x) + (b.y - a.y) * (b.y - a.y)) < 0 then
          pointDistanceSq p a
        else if ((p.x - a.x) * (b.x - a.x) + (p.y - a.y) * (b.y - a.y)) /
            ((b.x - a.x) * (b.x - a.x) + (b.y - a.y) * (b.y - a.y)) > 1 then
          pointDistanceSq p b
        else lineDistanceSq p a b) := by
  constructor
  · intro hab
    subst hab
    have hz : (a.x - a.x) * (a.x - a.x) + (a.y - a.y) * (a.y - a.y) = 0 := by ring
    simp only [perpendicularDistanceSq, pointDistanceSq]
    rw [if_pos hz]
    ring
  · intro hab
    have hlen : (b.x - a.x) * (b.x - a.x) + (b.y - a.y) * (b.y - a.y) ≠ 0 := by
      intro h0
      have hx2 : (b.x - a.x) * (b.x - a.x) = 0 ∧ (b.y - a.y) * (b.y - a.y) = 0 := by
        constructor <;> nlinarith [mul_self_nonneg (b.x - a.x), mul_self_nonneg (b.y - a.y)]
      have hbx : b.x = a.x := by
        have := mul_self_eq_zero.mp hx2.1; linarith
      have hby : b.y = a.y := by
        have := mul_self_eq_zero.mp hx2.2; linarith
      exact hab (by cases a; cases b; simp_all)
    simp only [perpendicularDistanceSq, if_neg hlen]
    by_cases h1 : ((p.x - a.x) * (b.x - a.x) + (p.y - a.y) * (b.y - a.y)) /
        ((b.x - a.x) * (b.x - a.x) + (b.y - a.y) * (b.y - a.y)) < 0
    · rw [if_pos h1, if_pos h1]
      simp only [pointDistanceSq]
      ring
    · rw [if_neg h1, if_neg h1]
      by_cases h2 : ((p.x - a.x) * (b.x - a.x) + (p.y - a.y) * (b.y - a.y)) /
          ((b.x - a.x) * (b.x - a.x) + (b.y - a.y) * (b.y - a.y)) > 1
      · rw [if_pos h2, if_pos h2]
        simp only [pointDistanceSq]
        ring
      · rw [if_neg h2, if_neg h2]
        simp only [lineDistanceSq]
        have hlen2 : (b.x - a.x) ^ 2 + (b.y - a.y) ^ 2 ≠ 0 := by
          intro h0; exact hlen (by nlinarith [h0])
        field_simp [hlen, hlen2]
        ring

/-- C8, witness for `c8_perpendicular_distance`: the clamped case at the
counterexample's input, and the degenerate case at coincident
endpoints. -/
theorem c8_witness :
    perpendicularDistanceSq ⟨2, 1⟩ ⟨0, 0⟩ ⟨1, 0⟩ = pointDistanceSq ⟨2, 1⟩ ⟨1, 0⟩ ∧
    perpendicularDistanceSq ⟨2, 1⟩ ⟨5, 7⟩ ⟨5, 7⟩ = pointDistanceSq ⟨2, 1⟩ ⟨5, 7⟩ := by
  constructor
  · have h := (c8_perpendicular_distance ⟨2, 1⟩ ⟨0, 0⟩ ⟨1, 0⟩).2
      (fun heq => absurd (congrArg Point.x heq) (by norm_num))
    rw [h]
    norm_num [pointDistanceSq]
  · exact (c8_perpendicular_distance ⟨2, 1⟩ ⟨5, 7⟩ ⟨5, 7⟩).1 rfl

/-! ## Douglas-Peucker simplification (SVG generator source) -/

/-- The maximum-distance scan of `douglasPeucker`: starting from
`maxDistance = 0`, `maxIndex = 0`, visit `i = 1 .. end-1` and record the
strictly larger distances.  Distances are squared (see
`perpendicularDistanceSq`). -/
def maxDistPair (pts : List Point) : ℚ × ℕ :=
  (List.range (pts.length - 1 - 1)).foldl (fun acc j =>
    let d := perpendicularDistanceSq pts[j + 1]! pts[0]! pts[pts.length - 1]!
    if d > acc.1 then (d, j + 1) else acc) ((0 : ℚ), (0 : ℕ))

/-- `douglasPeucker`, with the recursion bounded by `gas` (the wrapper
passes the list length, which dominates the recursion depth).  The
`gas = 0` branch is reachable only when `tolerance < 0` and every
interior distance is `0` (`maxIndex = 0`): there the source recurses on
`points.slice(0)` — the whole list — and never terminates, so the
embedding returns the list unchanged instead.  `tolerance` here is the
square of the source's tolerance. -/
def dpAux : ℕ → List Point → ℚ → List Point
  | 0, pts, _ => pts
  | gas + 1, pts, tolerance =>
    if pts.length ≤ 2 then pts
    else
      let m := maxDistPair pts
      if m.1 > tolerance then
        (dpAux gas (pts.take (m.2 + 1)) tolerance).dropLast ++
          dpAux gas (pts.drop m.2) tolerance
      else
        [pts[0]!, pts[pts.length - 1]!]

/-- `douglasPeucker(points, tolerance)`, squared-tolerance version. -/
def douglasPeucker (pts : List Point) (tolerance : ℚ) : List Point :=
  dpAux pts.length pts tolerance

theorem selFold_snd_le (f : ℕ → ℚ) (k : ℕ) :
    ∀ (l : List ℕ) (acc : ℚ × ℕ), acc.2 ≤ k → (∀ j ∈ l, j + 1 ≤ k) →
      (l.foldl (fun acc j => if f j > acc.1 then (f j, j + 1) else acc) acc).2 ≤ k := by
  intro l
  induction l with
  | nil => intro acc h _; exact h
  | cons b t ih =>
    intro acc h hall
    simp only [List.foldl_cons]
    by_cases hb : f b > acc.1
    · rw [if_pos hb]
      exact ih _ (hall b (by simp)) fun j hj => hall j (by simp [hj])
    · rw [if_neg hb]
      exact ih _ h fun j hj => hall j (by simp [hj])

theorem selFold_fst_le (f : ℕ → ℚ) (c : ℚ) :
    ∀ (l : List ℕ) (acc : ℚ × ℕ), acc.1 ≤ c → (∀ j ∈ l, f j ≤ c) →
      (l.foldl (fun acc j => if f j > acc.1 then (f j, j + 1) else acc) acc).1 ≤ c := by
  intro l
  induction l with
  | nil => intro acc h _; exact h
  | cons b t ih =>
    intro acc h hall
    simp only [List.foldl_cons]
    by_cases hb : f b > acc.1
    · rw [if_pos hb]
      exact ih _ (hall b (by simp)) fun j hj => hall j (by simp [hj])
    · rw [if_neg hb]
      exact ih _ h fun j hj => hall j (by simp [hj])

theorem maxDistPair_snd_le (pts : List Point) : (maxDistPair pts).2 ≤ pts.length - 2 := by
  unfold maxDistPair
  exact selFold_snd_le _ (pts.length - 2) _ _ (by omega)
    (fun j hj => by have := List.mem_range.mp hj; omega)

theorem maxDistPair_fst_le (pts : List Point) (c : ℚ)
    (h0 : 0 ≤ c)
    (hall : ∀ j, j + 1 ≤ pts.length - 2 →
      perpendicularDistanceSq pts[j + 1]! pts[0]! pts[pts.length - 1]! ≤ c) :
    (maxDistPair pts).1 ≤ c := by
  unfold maxDistPair
  exact selFold_fst_le _ c _ _ h0
    (fun j hj => hall j (by have := List.mem_range.mp hj; omega))

theorem dpAux_short (gas : ℕ) (pts : List Point) (tol : ℚ) (h : pts.length ≤ 2) :
    dpAux gas pts tol = pts := by
  cases gas with
  | zero => rfl
  | succ n => simp [dpAux, if_pos h]

theorem perpendicularDistanceSq_self_left (a b : Point) :
    perpendicularDistanceSq a a b = 0 := by
  simp only [perpendicularDistanceSq, sub_self, mul_zero, zero_mul, add_zero, zero_add,
    zero_div]
  by_cases h : (b.x - a.x) * (b.x - a.x) + (b.y - a.y) * (b.y - a.y) = 0
  · rw [if_pos h]
  · rw [if_neg h]
    norm_num

theorem head?_take_succ {α : Type} (l : List α) (n : ℕ) :
    (l.take (n + 1)).head? = l.head? := by
  rw [List.head?_eq_getElem?, List.head?_eq_getElem?, List.getElem?_take]
  simp

theorem getLast?_drop_of_lt {α : Type} (l : List α) (n : ℕ) (h : n < l.length) :
    (l.drop n).getLast? = l.getLast? := by
  rw [List.getLast?_eq_getElem?, List.getLast?_eq_getElem?, List.length_drop,
    List.getElem?_drop]
  congr 1
  omega

theorem head?_dropLast_of_ge2 {α : Type} (l : List α) (h : 2 ≤ l.length) :
    l.dropLast.head? = l.head? := by
  match l, h with
  | a :: b :: t, _ => rfl

theorem head?_eq_some_getElemBang (l : List Point) (h : 0 < l.length) :
    l.head? = some l[0]! := by
  rw [List.head?_eq_getElem?, List.getElem?_eq_getElem h, getElem!_pos l 0 h]

theorem getLast?_eq_some_getElemBang (l : List Point) (h : 0 < l.length) :
    l.getLast? = some l[l.length - 1]! := by
  rw [List.getLast?_eq_getElem?, List.getElem?_eq_getElem (by omega),
    getElem!_pos l (l.length - 1) (by omega)]

theorem pair_sublist (l : List Point) (h : 2 ≤ l.length) :
    [l[0]!, l[l.length - 1]!].Sublist l := by
  cases l with
  | nil => simp at h
  | cons a t =>
    cases t with
    | nil => simp at h
    | cons b t2 =>
      have hne : (b :: t2 : List Point) ≠ [] := by simp
      have h0 : (a :: b :: t2)[0]! = a := by
        rw [getElem!_pos _ 0 (by simp)]; rfl
      have hlast : (a :: b :: t2)[(a :: b :: t2).length - 1]! = (b :: t2).getLast hne := by
        rw [getElem!_pos _ _ (by simp)]
        rw [← List.getLast_eq_getElem (a :: b :: t2) (by simp)]
        exact List.getLast_cons hne
      rw [h0, hlast]
      exact List.cons_sublist_cons.mpr
        (List.singleton_sublist.mpr (List.getLast_mem hne))

theorem dpAux_length_le : ∀ (gas : ℕ) (pts : List Point) (tol : ℚ),
    (dpAux gas pts tol).length ≤ pts.length := by
  intro gas
  induction gas with
  | zero => intro pts tol; exact le_refl _
  | succ n ih =>
    intro pts tol
    simp only [dpAux]
    by_cases h2 : pts.length ≤ 2
    · rw [if_pos h2]
    · rw [if_neg h2]
      by_cases hgt : (maxDistPair pts).1 > tol
      · rw [if_pos hgt]
        have hm2 := maxDistPair_snd_le pts
        have hL := ih (pts.take ((maxDistPair pts).2 + 1)) tol
        have hR := ih (pts.drop (maxDistPair pts).2) tol
        rw [List.length_take] at hL
        rw [List.length_drop] at hR
        rw [List.length_append, List.length_dropLast]
        omega
      · rw [if_neg hgt]
        simp only [List.length_cons, List.length_nil]
        omega

theorem dpAux_length_ge2 : ∀ (gas : ℕ) (pts : List Point) (tol : ℚ),
    2 ≤ pts.length → 2 ≤ (dpAux gas pts tol).length := by
  intro gas
  induction gas with
  | zero => intro pts tol h; exact h
  | succ n ih =>
    intro pts tol h
    simp only [dpAux]
    by_cases h2 : pts.length ≤ 2
    · rw [if_pos h2]; exact h
    · rw [if_neg h2]
      by_cases hgt : (maxDistPair pts).1 > tol
      · rw [if_pos hgt]
        have hm2 := maxDistPair_snd_le pts
        have hR := ih (pts.drop (maxDistPair pts).2) tol
          (by rw [List.length_drop]; omega)
        rw [List.length_append]
        omega
      · rw [if_neg hgt]
        simp only [List.length_cons, List.length_nil]
        omega

theorem dpAux_ends : ∀ (gas : ℕ) (pts : List Point) (tol : ℚ),
    (dpAux gas pts tol).head? = pts.head? ∧
      (dpAux gas pts tol).getLast? = pts.getLast? := by
  intro gas
  induction gas with
  | zero => intro pts tol; exact ⟨rfl, rfl⟩
  | succ n ih =>
    intro pts tol
    simp only [dpAux]
    by_cases h2 : pts.length ≤ 2
    · rw [if_pos h2]; exact ⟨rfl, rfl⟩
    · rw [if_neg h2]
      by_cases hgt : (maxDistPair pts).1 > tol
      · rw [if_pos hgt]
        have hm2 := maxDistPair_snd_le pts
        by_cases hm0 : (maxDistPair pts).2 = 0
        · rw [hm0]
          have hleft : dpAux n (pts.take (0 + 1)) tol = pts.take 1 :=
            dpAux_short _ _ _ (by rw [List.length_take]; omega)
          rw [hleft, List.drop_zero]
          have hdl : (pts.take 1).dropLast = [] := by
            apply List.eq_nil_of_length_eq_zero
            rw [List.length_dropLast, List.length_take]
            omega
          rw [hdl, List.nil_append]
          exact ih pts tol
        · have hLge2 := dpAux_length_ge2 n (pts.take ((maxDistPair pts).2 + 1)) tol
            (by rw [List.length_take]; omega)
          have hRge2 := dpAux_length_ge2 n (pts.drop (maxDistPair pts).2) tol
            (by rw [List.length_drop]; omega)
          constructor
          · rw [List.head?_append]
            have hh : (dpAux n (pts.take ((maxDistPair pts).2 + 1)) tol).dropLast.head? =
                pts.head? := by
              rw [head?_dropLast_of_ge2 _ hLge2, (ih _ tol).1, head?_take_succ]
            rw [hh]
            obtain ⟨a, ha⟩ : ∃ a, pts.head? = some a := by
              cases pts with
              | nil => simp at h2
              | cons a t => exact ⟨a, rfl⟩
            rw [ha]
            rfl
          · rw [List.getLast?_append]
            have hg : (dpAux n (pts.drop (maxDistPair pts).2) tol).getLast? =
                pts.getLast? := by
              rw [(ih _ tol).2, getLast?_drop_of_lt _ _ (by omega)]
            rw [hg]
            obtain ⟨a, ha⟩ : ∃ a, pts.getLast? = some a := by
              refine ⟨pts[pts.length - 1]!, ?_⟩
              exact getLast?_eq_some_getElemBang pts (by omega)
            rw [ha]
            rfl
      · rw [if_neg hgt]
        constructor
        · rw [head?_eq_some_getElemBang pts (by omega)]
          rfl
        · rw [getLast?_eq_some_getElemBang pts (by omega)]
          rfl

theorem dpAux_sublist : ∀ (gas : ℕ) (pts : List Point) (tol : ℚ),
    (dpAux gas pts tol).Sublist pts := by
  intro gas
  induction gas with
  | zero => intro pts tol; exact List.Sublist.refl _
  | succ n ih =>
    intro pts tol
    simp only [dpAux]
    by_cases h2 : pts.length ≤ 2
    · rw [if_pos h2]
    · rw [if_neg h2]
      by_cases hgt : (maxDistPair pts).1 > tol
      · rw [if_pos hgt]
        have hm2 := maxDistPair_snd_le pts
        by_cases hm0 : (maxDistPair pts).2 = 0
        · rw [hm0]
          have hleft : dpAux n (pts.take (0 + 1)) tol = pts.take 1 :=
            dpAux_short _ _ _ (by rw [List.length_take]; omega)
          rw [hleft, List.drop_zero]
          have hdl : (pts.take 1).dropLast = [] := by
            apply List.eq_nil_of_length_eq_zero
            rw [List.length_dropLast, List.length_take]
            omega
          rw [hdl, List.nil_append]
          exact ih pts tol
        · have hm2lt : (maxDistPair pts).2 < pts.length := by omega
          have hLsub := ih (pts.take ((maxDistPair pts).2 + 1)) tol
          have hRsub := ih (pts.drop (maxDistPair pts).2) tol
          have hLge2 := dpAux_length_ge2 n (pts.take ((maxDistPair pts).2 + 1)) tol
            (by rw [List.length_take]; omega)
          have hLne : dpAux n (pts.take ((maxDistPair pts).2 + 1)) tol ≠ [] := by
            intro hnil
            rw [hnil] at hLge2
            simp at hLge2
          have hgl : (dpAux n (pts.take ((maxDistPair pts).2 + 1)) tol).getLast? =
              some pts[(maxDistPair pts).2] := by
            rw [(dpAux_ends n (pts.take ((maxDistPair pts).2 + 1)) tol).2,
              List.getLast?_eq_getElem?, List.length_take]
            have he : ((maxDistPair pts).2 + 1) ⊓ pts.length - 1 = (maxDistPair pts).2 := by
              omega
            rw [he, List.getElem?_take, if_pos (by omega), List.getElem?_eq_getElem hm2lt]
          have hgetLast : (dpAux n (pts.take ((maxDistPair pts).2 + 1)) tol).getLast hLne =
              pts[(maxDistPair pts).2] := by
            have h := List.getLast?_eq_getLast _ hLne
            rw [h] at hgl
            exact Option.some.inj hgl
          have hLdecomp : (dpAux n (pts.take ((maxDistPair pts).2 + 1)) tol).dropLast ++
              [pts[(maxDistPair pts).2]] =
              dpAux n (pts.take ((maxDistPair pts).2 + 1)) tol := by
            rw [← hgetLast]
            exact List.dropLast_append_getLast hLne
          have hTdecomp : pts.take ((maxDistPair pts).2 + 1) =
              pts.take (maxDistPair pts).2 ++ [pts[(maxDistPair pts).2]] := by
            rw [List.take_succ, List.getElem?_eq_getElem hm2lt]
            rfl
          have hsubL : (dpAux n (pts.take ((maxDistPair pts).2 + 1)) tol).dropLast.Sublist
              (pts.take (maxDistPair pts).2) := by
            have h : ((dpAux n (pts.take ((maxDistPair pts).2 + 1)) tol).dropLast ++
                [pts[(maxDistPair pts).2]]).Sublist
                (pts.take (maxDistPair pts).2 ++ [pts[(maxDistPair pts).2]]) := by
              rw [hLdecomp, ← hTdecomp]
              exact hLsub
            exact (List.append_sublist_append_right _).mp h
          have h := List.Sublist.append hsubL hRsub
          rw [List.take_append_drop] at h
          exact h
      · rw [if_neg hgt]
        exact pair_sublist pts (by omega)

/-- The generator's `optimizationSettings` (constructor values);
`simplifyToleranceSq` is the square of the source's `2.0`. -/
structure OptimizationSettings where
  simplifyToleranceSq : ℚ
  minPathLength : ℕ
  maxPoints : ℕ
  smoothingFactor : ℚ
  deriving DecidableEq, Repr

def optimizationSettings : OptimizationSettings :=
  { simplifyToleranceSq := 4, minPathLength := 10, maxPoints := 1000,
    smoothingFactor := 3 / 2 }

/-- `simplifyPath`: degenerate guard, then Douglas-Peucker at the
configured tolerance. -/
def simplifyPath (s : OptimizationSettings) (points : List Point) : List Point :=
  if points.length ≤ 2 then points
  else douglasPeucker points s.simplifyToleranceSq

theorem dpAux_collapse (gas : ℕ) (pts : List Point) (tol : ℚ) (hgas : 1 ≤ gas)
    (h3 : 3 ≤ pts.length) (hmd : (maxDistPair pts).1 ≤ tol) :
    dpAux gas pts tol = [pts[0]!, pts[pts.length - 1]!] := by
  cases gas with
  | zero => omega
  | succ n =>
    simp only [dpAux]
    rw [if_neg (by omega), if_neg (not_lt.mpr hmd)]

theorem list_len2_eq (l : List Point) (hl : l.length = 2) :
    l = [l[0]!, l[l.length - 1]!] := by
  match l, hl with
  | [a, b], _ =>
    rw [getElem!_pos _ 0 (by norm_num), getElem!_pos _ _ (by norm_num)]
    rfl

/-- C4, counterexample.  With tolerance `0` Douglas-Peucker drops the
collinear interior point of `(0,0), (1,0), (2,0)` (its chord distance is
exactly `0`, not `> 0`), so the original sequence is not returned
unchanged. -/
theorem c4_counterexample :
    douglasPeucker [⟨0, 0⟩, ⟨1, 0⟩, ⟨2, 0⟩] 0 ≠ [⟨0, 0⟩, ⟨1, 0⟩, ⟨2, 0⟩] := by
  have hval : douglasPeucker [⟨0, 0⟩, ⟨1, 0⟩, ⟨2, 0⟩] 0 = [⟨0, 0⟩, ⟨2, 0⟩] := by
    norm_num [douglasPeucker, dpAux, maxDistPair, perpendicularDistanceSq, List.range_succ]
  rw [hval]
  intro h
  have hlen := congrArg List.length h
  simp at hlen

/-- C4 (corrected).  With tolerance `0` the result is a subsequence of
the input with the input's first and last points (interior points lying
exactly on a chord are dropped, so the sequence is not always returned
unchanged); and whenever every point's squared chord distance is at most
the tolerance — the finite analogue of `tolerance = ∞` — an input with
at least two points collapses to exactly its two endpoints. -/
theorem c4_douglasPeucker :
    (∀ pts : List Point,
      (douglasPeucker pts 0).Sublist pts ∧
      (douglasPeucker pts 0).head? = pts.head? ∧
      (douglasPeucker pts 0).getLast? = pts.getLast?) ∧
    (∀ (pts : List Point) (tol : ℚ), 2 ≤ pts.length →
      (∀ q ∈ pts, perpendicularDistanceSq q pts[0]! pts[pts.length - 1]! ≤ tol) →
      douglasPeucker pts tol = [pts[0]!, pts[pts.length - 1]!]) := by
  constructor
  · intro pts
    exact ⟨dpAux_sublist _ pts 0, (dpAux_ends _ pts 0).1, (dpAux_ends _ pts 0).2⟩
  · intro pts tol h2 hall
    by_cases h3 : pts.length ≤ 2
    · rw [douglasPeucker, dpAux_short _ _ _ h3]
      exact list_len2_eq pts (by omega)
    · have h0tol : 0 ≤ tol := by
        have h00 := hall pts[0]! (by
          rw [getElem!_pos pts 0 (by omega)]
          exact List.getElem_mem _)
        rwa [perpendicularDistanceSq_self_left] at h00
      have hmd : (maxDistPair pts).1 ≤ tol := by
        apply maxDistPair_fst_le pts tol h0tol
        intro j hj
        apply hall
        rw [getElem!_pos pts (j + 1) (by omega)]
        exact List.getElem_mem _
      rw [douglasPeucker]
      exact dpAux_collapse _ _ _ (by omega) (by omega) hmd

/-- C4, witness for `c4_douglasPeucker` at a concrete non-collinear
triangle with a tolerance dominating every chord distance. -/
theorem c4_witness :
    douglasPeucker ([⟨0, 0⟩, ⟨1, 1⟩, ⟨2, 0⟩] : List Point) 100 =
      [([⟨0, 0⟩, ⟨1, 1⟩, ⟨2, 0⟩] : List Point)[0]!,
        ([⟨0, 0⟩, ⟨1, 1⟩, ⟨2, 0⟩] : List Point)[([⟨0, 0⟩, ⟨1, 1⟩, ⟨2, 0⟩] : List Point).length - 1]!] := by
  apply c4_douglasPeucker.2 [⟨0, 0⟩, ⟨1, 1⟩, ⟨2, 0⟩] 100 (by norm_num)
  intro q hq
  have h0 : ([⟨0, 0⟩, ⟨1, 1⟩, ⟨2, 0⟩] : List Point)[0]! = ⟨0, 0⟩ := by
    rw [getElem!_pos _ 0 (by norm_num)]
    rfl
  have h2 : ([⟨0, 0⟩, ⟨1, 1⟩, ⟨2, 0⟩] : List Point)[([⟨0, 0⟩, ⟨1, 1⟩, ⟨2, 0⟩] : List Point).length - 1]! = ⟨2, 0⟩ := by
    rw [getElem!_pos _ _ (by norm_num)]
    rfl
  rw [h0, h2]
  simp only [List.mem_cons, List.not_mem_nil, or_false] at hq
  rcases hq with h | h | h <;> subst h <;>
    norm_num [perpendicularDistanceSq]

/-- C5 (confirmed).  Simplification never increases the point count, and
degenerate inputs of at most two points are returned unchanged — both
for `douglasPeucker` at any non-negative tolerance and for the
`simplifyPath` wrapper with its configured tolerance. -/
theorem c5_simplify_length (pts : List Point) (t : ℚ) (s : OptimizationSettings)
    (_ht : 0 ≤ t) :
    (douglasPeucker pts t).length ≤ pts.length ∧
    (simplifyPath s pts).length ≤ pts.length ∧
    (pts.length ≤ 2 → simplifyPath s pts = pts ∧ douglasPeucker pts t = pts) := by
  refine ⟨dpAux_length_le _ _ _, ?_, ?_⟩
  · unfold simplifyPath
    by_cases h : pts.length ≤ 2
    · rw [if_pos h]
    · rw [if_neg h]
      exact dpAux_length_le _ _ _
  · intro h
    constructor
    · unfold simplifyPath
      rw [if_pos h]
    · exact dpAux_short _ _ _ h

/-- C5, witness for `c5_simplify_length` at a concrete input. -/
theorem c5_witness :
    (douglasPeucker ([⟨0, 0⟩, ⟨1, 1⟩, ⟨2, 0⟩] : List Point) 0).length ≤
      ([⟨0, 0⟩, ⟨1, 1⟩, ⟨2, 0⟩] : List Point).length ∧
    (simplifyPath optimizationSettings [⟨0, 0⟩, ⟨1, 1⟩, ⟨2, 0⟩]).length ≤
      ([⟨0, 0⟩, ⟨1, 1⟩, ⟨2, 0⟩] : List Point).length ∧
    (([⟨0, 0⟩, ⟨1, 1⟩, ⟨2, 0⟩] : List Point).length ≤ 2 →
      simplifyPath optimizationSettings [⟨0, 0⟩, ⟨1, 1⟩, ⟨2, 0⟩] = [⟨0, 0⟩, ⟨1, 1⟩, ⟨2, 0⟩] ∧
      douglasPeucker ([⟨0, 0⟩, ⟨1, 1⟩, ⟨2, 0⟩] : List Point) 0 = [⟨0, 0⟩, ⟨1, 1⟩, ⟨2, 0⟩]) :=
  c5_simplify_length [⟨0, 0⟩, ⟨1, 1⟩, ⟨2, 0⟩] 0 optimizationSettings (by norm_num)

/-! ## Region tracing (`createBinaryMap`, `findContours`, `traceContour`) -/

/-- `createBinaryMap`: a cell is ink when the red channel is dark
(`data[idx] < 128`).  The source materialises a `height × width` array;
the embedding keeps the indexing function (consumers only read in-bounds
cells). -/
def createBinaryMap (data : ℕ → ℕ) (wdt _hgt : ℕ) : ℕ → ℕ → Bool :=
  fun y x => decide (data ((y * wdt + x) * 4) < 128)

/-- The Moore-neighbourhood direction vectors `[dx, dy]`, in source
order. -/
def directions : List (ℤ × ℤ) :=
  [(-1, -1), (-1, 0), (-1, 1), (0, -1), (0, 1), (1, -1), (1, 0), (1, 1)]

/-- `visited[y][x] = true` — the 2-D boolean array as a function. -/
def markVisited (visited : ℕ → ℕ → Bool) (x y : ℕ) : ℕ → ℕ → Bool :=
  fun y' x' => if y' = y ∧ x' = x then true else visited y' x'

/-- The neighbour loop of `traceContour`: push every in-bounds,
unvisited ink neighbour.  JavaScript `push`/`pop` work at the array's
end; the embedding keeps the stack top at the list head, so each push is
a `cons` and the last-pushed neighbour is popped first, as in the
source. -/
def pushNeighbors (bm visited : ℕ → ℕ → Bool) (w h x y : ℕ)
    (stack : List (ℕ × ℕ)) : List (ℕ × ℕ) :=
  directions.foldl (fun st d =>
    let nx := (x : ℤ) + d.1
    let ny := (y : ℤ) + d.2
    if 0 ≤ nx ∧ nx < (w : ℤ) ∧ 0 ≤ ny ∧ ny < (h : ℤ) ∧
        visited ny.toNat nx.toNat = false ∧ bm ny.toNat nx.toNat = true then
      (nx.toNat, ny.toNat) :: st
    else st) stack

/-- The `while` loop of `traceContour`, with an explicit iteration bound
`gas`.  Every iteration pops one cell; cells are pushed only when a
fresh cell is visited (at most `width·height` times, at most 8 pushes
each) on top of the single seed, so the `1 + 8·width·height` supplied by
`traceContour` is never exhausted and the cut-off branch returns exactly
what the source's loop-exit would.  The in-bounds test on the popped
cell drops the source's `x < 0`/`y < 0` disjuncts, which cannot hold for
natural-number coordinates (all pushed cells are bounds-checked). -/
def traceGo (s : OptimizationSettings) (bm : ℕ → ℕ → Bool) (w h : ℕ) :
    ℕ → List (ℕ × ℕ) → (ℕ → ℕ → Bool) → List (ℕ × ℕ) →
      List (ℕ × ℕ) × (ℕ → ℕ → Bool)
  | 0, _, visited, contour => (contour, visited)
  | _ + 1, [], visited, contour => (contour, visited)
  | gas + 1, (x, y) :: stack, visited, contour =>
    if s.maxPoints ≤ contour.length then (contour, visited)
    else if x < w ∧ y < h ∧ visited y x = false ∧ bm y x = true then
      traceGo s bm w h gas
        (pushNeighbors bm (markVisited visited x y) w h x y stack)
        (markVisited visited x y) (contour ++ [(x, y)])
    else traceGo s bm w h gas stack visited contour

/-- `traceContour`: iterative flood traversal from the seed, returning
the collected contour and the updated shared `visited` map. -/
def traceContour (s : OptimizationSettings) (bm : ℕ → ℕ → Bool)
    (visited : ℕ → ℕ → Bool) (startX startY w h : ℕ) :
    List (ℕ × ℕ) × (ℕ → ℕ → Bool) :=
  traceGo s bm w h (1 + 8 * (w * h)) [(startX, startY)] visited []

/-- The scan order of `findContours`: `(x, y)` for
`y = 1 .. height-2` (outer), `x = 1 .. width-2` (inner). -/
def scanPositions (w h : ℕ) : List (ℕ × ℕ) :=
  (List.range (h - 2)).flatMap (fun j =>
    (List.range (w - 2)).map (fun i => (i + 1, j + 1)))

/-- One scan step of `findContours`: seed a trace at an unvisited ink
cell and keep the contour only if it meets the minimum length. -/
def findContoursStep (s : OptimizationSettings) (bm : ℕ → ℕ → Bool) (w h : ℕ)
    (st : List (List (ℕ × ℕ)) × (ℕ → ℕ → Bool)) (pos : ℕ × ℕ) :
    List (List (ℕ × ℕ)) × (ℕ → ℕ → Bool) :=
  if bm pos.2 pos.1 = true ∧ st.2 pos.2 pos.1 = false then
    let r := traceContour s bm st.2 pos.1 pos.2 w h
    if s.minPathLength ≤ r.1.length then (st.1 ++ [r.1], r.2) else (st.1, r.2)
  else st

/-- `findContours`: scan the interior in row-major order with one shared
`visited` map. -/
def findContours (s : OptimizationSettings) (bm : ℕ → ℕ → Bool) (w h : ℕ) :
    List (List (ℕ × ℕ)) :=
  ((scanPositions w h).foldl (findContoursStep s bm w h) ([], fun _ _ => false)).1

theorem traceGo_visited_mono (s : OptimizationSettings) (bm : ℕ → ℕ → Bool) (w h : ℕ) :
    ∀ (gas : ℕ) (stack : List (ℕ × ℕ)) (visited : ℕ → ℕ → Bool)
      (contour : List (ℕ × ℕ)) (y x : ℕ), visited y x = true →
      (traceGo s bm w h gas stack visited contour).2 y x = true := by
  intro gas
  induction gas with
  | zero => intro stack visited contour y x hv; exact hv
  | succ n ih =>
    intro stack visited contour y x hv
    rcases stack with _ | ⟨⟨px, py⟩, rest⟩
    · exact hv
    · simp only [traceGo]
      by_cases hcap : s.maxPoints ≤ contour.length
      · rw [if_pos hcap]; exact hv
      · rw [if_neg hcap]
        by_cases hcond : px < w ∧ py < h ∧ visited py px = false ∧ bm py px = true
        · rw [if_pos hcond]
          apply ih
          unfold markVisited
          by_cases he : y = py ∧ x = px
          · rw [if_pos he]
          · rw [if_neg he]; exact hv
        · rw [if_neg hcond]
          exact ih _ _ _ _ _ hv

theorem traceGo_contour_spec (s : OptimizationSettings) (bm : ℕ → ℕ → Bool) (w h : ℕ) :
    ∀ (gas : ℕ) (stack : List (ℕ × ℕ)) (visited : ℕ → ℕ → Bool)
      (contour : List (ℕ × ℕ)) (p : ℕ × ℕ),
      p ∈ (traceGo s bm w h gas stack visited contour).1 →
      p ∈ contour ∨ (visited p.2 p.1 = false ∧
        (traceGo s bm w h gas stack visited contour).2 p.2 p.1 = true) := by
  intro gas
  induction gas with
  | zero => intro stack visited contour p hp; exact Or.inl hp
  | succ n ih =>
    intro stack visited contour p hp
    rcases stack with _ | ⟨⟨px, py⟩, rest⟩
    · exact Or.inl hp
    · simp only [traceGo] at hp ⊢
      by_cases hcap : s.maxPoints ≤ contour.length
      · rw [if_pos hcap] at hp ⊢; exact Or.inl hp
      · rw [if_neg hcap] at hp ⊢
        by_cases hcond : px < w ∧ py < h ∧ visited py px = false ∧ bm py px = true
        · rw [if_pos hcond] at hp ⊢
          rcases ih _ _ _ p hp with hmem | ⟨hunvis, hvis⟩
          · rcases List.mem_append.mp hmem with hmem' | hmem'
            · exact Or.inl hmem'
            · have hpeq : p = (px, py) := by simpa using hmem'
              subst hpeq
              refine Or.inr ⟨hcond.2.2.1, ?_⟩
              apply traceGo_visited_mono
              unfold markVisited
              rw [if_pos ⟨rfl, rfl⟩]
          · refine Or.inr ⟨?_, hvis⟩
            unfold markVisited at hunvis
            by_cases he : p.2 = py ∧ p.1 = px
            · rw [if_pos he] at hunvis; cases hunvis
            · rwa [if_neg he] at hunvis
        · rw [if_neg hcond] at hp ⊢
          exact ih _ _ _ p hp

theorem pushNeighbors_mem (bm visited : ℕ → ℕ → Bool) (w h x y : ℕ) :
    ∀ (l : List (ℤ × ℤ)) (stack : List (ℕ × ℕ)) (q : ℕ × ℕ),
      q ∈ l.foldl (fun st d =>
        let nx := (x : ℤ) + d.1
        let ny := (y : ℤ) + d.2
        if 0 ≤ nx ∧ nx < (w : ℤ) ∧ 0 ≤ ny ∧ ny < (h : ℤ) ∧
            visited ny.toNat nx.toNat = false ∧ bm ny.toNat nx.toNat = true then
          (nx.toNat, ny.toNat) :: st
        else st) stack →
      q ∈ stack ∨ bm q.2 q.1 = true := by
  intro l
  induction l with
  | nil => intro stack q hq; exact Or.inl hq
  | cons d t ih =>
    intro stack q hq
    simp only [List.foldl_cons] at hq
    rcases ih _ q hq with hmem | hink
    · by_cases hcond : 0 ≤ (x : ℤ) + d.1 ∧ (x : ℤ) + d.1 < (w : ℤ) ∧
          0 ≤ (y : ℤ) + d.2 ∧ (y : ℤ) + d.2 < (h : ℤ) ∧
          visited ((y : ℤ) + d.2).toNat ((x : ℤ) + d.1).toNat = false ∧
          bm ((y : ℤ) + d.2).toNat ((x : ℤ) + d.1).toNat = true
      · rw [if_pos hcond] at hmem
        rcases List.mem_cons.mp hmem with hq' | hq'
        · subst hq'
          exact Or.inr hcond.2.2.2.2.2
        · exact Or.inl hq'
      · rw [if_neg hcond] at hmem
        exact Or.inl hmem
    · exact Or.inr hink

theorem traceGo_drain (s : OptimizationSettings) (bm : ℕ → ℕ → Bool) (w h : ℕ)
    (cx cy : ℕ) :
    ∀ (gas : ℕ) (stack : List (ℕ × ℕ)) (visited : ℕ → ℕ → Bool)
      (contour : List (ℕ × ℕ)),
      (∀ q ∈ stack, q = (cx, cy)) → visited cy cx = true →
      traceGo s bm w h gas stack visited contour = (contour, visited) := by
  intro gas
  induction gas with
  | zero => intro stack visited contour _ _; rfl
  | succ n ih =>
    intro stack visited contour hstack hv
    rcases stack with _ | ⟨⟨px, py⟩, rest⟩
    · rfl
    · have hpc : ((px, py) : ℕ × ℕ) = (cx, cy) := hstack _ (by simp)
      have hpx : px = cx := congrArg Prod.fst hpc
      have hpy : py = cy := congrArg Prod.snd hpc
      subst hpx
      subst hpy
      simp only [traceGo]
      by_cases hcap : s.maxPoints ≤ contour.length
      · rw [if_pos hcap]
      · rw [if_neg hcap, if_neg (by simp [hv])]
        exact ih rest visited contour (fun q hq => hstack q (by simp [hq])) hv

theorem findContoursStep_preserves (s : OptimizationSettings) (bm : ℕ → ℕ → Bool)
    (w h : ℕ) (st : List (List (ℕ × ℕ)) × (ℕ → ℕ → Bool)) (pos : ℕ × ℕ)
    (h1 : ∀ c ∈ st.1, ∀ p ∈ c, st.2 p.2 p.1 = true)
    (h2 : List.Pairwise (fun c₁ c₂ => ∀ p ∈ c₁, p ∉ c₂) st.1) :
    (∀ c ∈ (findContoursStep s bm w h st pos).1, ∀ p ∈ c,
      (findContoursStep s bm w h st pos).2 p.2 p.1 = true) ∧
    List.Pairwise (fun c₁ c₂ => ∀ p ∈ c₁, p ∉ c₂) (findContoursStep s bm w h st pos).1 := by
  unfold findContoursStep
  by_cases hguard : bm pos.2 pos.1 = true ∧ st.2 pos.2 pos.1 = false
  · rw [if_pos hguard]
    have hnew : ∀ p ∈ (traceContour s bm st.2 pos.1 pos.2 w h).1,
        st.2 p.2 p.1 = false ∧ (traceContour s bm st.2 pos.1 pos.2 w h).2 p.2 p.1 = true := by
      intro p hp
      rcases traceGo_contour_spec s bm w h _ _ _ _ p hp with hmem | hok
      · cases hmem
      · exact hok
    have hmono : ∀ y x, st.2 y x = true →
        (traceContour s bm st.2 pos.1 pos.2 w h).2 y x = true := by
      intro y x hv
      exact traceGo_visited_mono s bm w h _ _ _ _ y x hv
    by_cases hlen : s.minPathLength ≤ (traceContour s bm st.2 pos.1 pos.2 w h).1.length
    · rw [if_pos hlen]
      constructor
      · intro c hc p hp
        rcases List.mem_append.mp hc with hc' | hc'
        · exact hmono _ _ (h1 c hc' p hp)
        · have hceq : c = (traceContour s bm st.2 pos.1 pos.2 w h).1 := by simpa using hc'
          subst hceq
          exact (hnew p hp).2
      · rw [List.pairwise_append]
        refine ⟨h2, List.pairwise_singleton _ _, ?_⟩
        intro a ha b hb p hpa hpb
        have hbeq : b = (traceContour s bm st.2 pos.1 pos.2 w h).1 := by simpa using hb
        subst hbeq
        have hvis := h1 a ha p hpa
        have hunvis := (hnew p hpb).1
        rw [hvis] at hunvis
        cases hunvis
    · rw [if_neg hlen]
      exact ⟨fun c hc p hp => hmono _ _ (h1 c hc p hp), h2⟩
  · rw [if_neg hguard]
    exact ⟨h1, h2⟩

theorem findContours_fold_invariant (s : OptimizationSettings) (bm : ℕ → ℕ → Bool)
    (w h : ℕ) :
    ∀ (positions : List (ℕ × ℕ)) (st : List (List (ℕ × ℕ)) × (ℕ → ℕ → Bool)),
      (∀ c ∈ st.1, ∀ p ∈ c, st.2 p.2 p.1 = true) →
      List.Pairwise (fun c₁ c₂ => ∀ p ∈ c₁, p ∉ c₂) st.1 →
      (∀ c ∈ (positions.foldl (findContoursStep s bm w h) st).1, ∀ p ∈ c,
        (positions.foldl (findContoursStep s bm w h) st).2 p.2 p.1 = true) ∧
      List.Pairwise (fun c₁ c₂ => ∀ p ∈ c₁, p ∉ c₂)
        (positions.foldl (findContoursStep s bm w h) st).1 := by
  intro positions
  induction positions with
  | nil => intro st h1 h2; exact ⟨h1, h2⟩
  | cons pos rest ih =>
    intro st h1 h2
    simp only [List.foldl_cons]
    obtain ⟨h1', h2'⟩ := findContoursStep_preserves s bm w h st pos h1 h2
    exact ih _ h1' h2'

/-- C10 (confirmed).  All contours returned by one `findContours` call
are pairwise disjoint point sets: the single shared `visited` map is
only ever extended, `traceContour` collects a cell only when it is still
unvisited and marks it at once, so no pixel coordinate can be collected
into two contours. -/
theorem c10_contours_disjoint (s : OptimizationSettings) (bm : ℕ → ℕ → Bool)
    (w h : ℕ) :
    List.Pairwise (fun c₁ c₂ => ∀ p ∈ c₁, p ∉ c₂) (findContours s bm w h) := by
  unfold findContours
  exact (findContours_fold_invariant s bm w h (scanPositions w h)
    ([], fun _ _ => false) (by simp) (by simp)).2

/-- C10, witness: the disjointness statement at a concrete tracer
call. -/
theorem c10_witness :
    List.Pairwise (fun c₁ c₂ => ∀ p ∈ c₁, p ∉ c₂)
      (findContours optimizationSettings (fun y x => decide (x = 1 ∧ y = 1)) 4 4) :=
  c10_contours_disjoint optimizationSettings (fun y x => decide (x = 1 ∧ y = 1)) 4 4

theorem traceContour_single (s : OptimizationSettings) (bm : ℕ → ℕ → Bool)
    (w h px py : ℕ) (visited : ℕ → ℕ → Bool)
    (honly : ∀ y x, bm y x = true ↔ (x = px ∧ y = py))
    (hx : px < w) (hy : py < h) (hv : visited py px = false)
    (hmax : 1 ≤ s.maxPoints) :
    traceContour s bm visited px py w h = ([(px, py)], markVisited visited px py) := by
  unfold traceContour
  obtain ⟨g, hg⟩ : ∃ g, 1 + 8 * (w * h) = g + 1 := ⟨8 * (w * h), by omega⟩
  rw [hg]
  simp only [traceGo]
  rw [if_neg (by simp only [List.length_nil]; omega),
    if_pos ⟨hx, hy, hv, (honly py px).mpr ⟨rfl, rfl⟩⟩, List.nil_append]
  apply traceGo_drain s bm w h px py
  · intro q hq
    rcases pushNeighbors_mem bm (markVisited visited px py) w h px py directions [] q hq with
      hmem | hink
    · cases hmem
    · obtain ⟨h1, h2⟩ := (honly q.2 q.1).mp hink
      exact Prod.ext h1 h2
  · unfold markVisited
    rw [if_pos ⟨rfl, rfl⟩]

theorem findContours_noop (s : OptimizationSettings) (bm : ℕ → ℕ → Bool) (w h : ℕ) :
    ∀ (positions : List (ℕ × ℕ)) (st : List (List (ℕ × ℕ)) × (ℕ → ℕ → Bool)),
      (∀ pos ∈ positions, bm pos.2 pos.1 = false) →
      positions.foldl (findContoursStep s bm w h) st = st := by
  intro positions
  induction positions with
  | nil => intro st _; rfl
  | cons pos rest ih =>
    intro st hall
    simp only [List.foldl_cons]
    have hstep : findContoursStep s bm w h st pos = st := by
      unfold findContoursStep
      rw [if_neg]
      intro hguard
      rw [hall pos (by simp)] at hguard
      cases hguard.1
    rw [hstep]
    exact ih st fun q hq => hall q (by simp [hq])

theorem c6_fold (s : OptimizationSettings) (bm : ℕ → ℕ → Bool) (w h px py : ℕ)
    (honly : ∀ y x, bm y x = true ↔ (x = px ∧ y = py)) (hmax : 1 ≤ s.maxPoints) :
    ∀ (positions : List (ℕ × ℕ)) (st : List (List (ℕ × ℕ)) × (ℕ → ℕ → Bool)),
      (∀ pos ∈ positions, pos.1 < w ∧ pos.2 < h) →
      (st.1 = [] ∨ (st.1 = [[(px, py)]] ∧ st.2 py px = true)) →
      ((positions.foldl (findContoursStep s bm w h) st).1 = [] ∨
        ((positions.foldl (findContoursStep s bm w h) st).1 = [[(px, py)]] ∧
          (positions.foldl (findContoursStep s bm w h) st).2 py px = true)) := by
  intro positions
  induction positions with
  | nil => intro st _ hinv; exact hinv
  | cons pos rest ih =>
    intro st hbounds hinv
    simp only [List.foldl_cons]
    apply ih _ (fun q hq => hbounds q (by simp [hq]))
    unfold findContoursStep
    by_cases hguard : bm pos.2 pos.1 = true ∧ st.2 pos.2 pos.1 = false
    · rw [if_pos hguard]
      obtain ⟨hpx, hpy⟩ := (honly pos.2 pos.1).mp hguard.1
      have hst1 : st.1 = [] := by
        rcases hinv with h | ⟨_, hvis⟩
        · exact h
        · rw [hpx, hpy] at hguard
          rw [hvis] at hguard
          cases hguard.2
      have hb := hbounds pos (by simp)
      have htrace : traceContour s bm st.2 pos.1 pos.2 w h =
          ([(px, py)], markVisited st.2 px py) := by
        rw [hpx, hpy] at hguard hb ⊢
        exact traceContour_single s bm w h px py st.2 honly hb.1 hb.2 hguard.2 hmax
      rw [htrace]
      by_cases hlen : s.minPathLength ≤ ([(px, py)] : List (ℕ × ℕ)).length
      · rw [if_pos hlen]
        refine Or.inr ⟨?_, ?_⟩
        · simp [hst1]
        · simp [markVisited]
      · rw [if_neg hlen]
        exact Or.inl (by simp [hst1])
    · rw [if_neg hguard]
      exact hinv

theorem scanPositions_bounds (w h : ℕ) :
    ∀ pos ∈ scanPositions w h, pos.1 < w ∧ pos.2 < h := by
  intro pos hpos
  unfold scanPositions at hpos
  obtain ⟨j, hj, hpos⟩ := List.mem_flatMap.mp hpos
  obtain ⟨i, hi, hpos⟩ := List.mem_map.mp hpos
  have hj' := List.mem_range.mp hj
  have hi' := List.mem_range.mp hi
  subst hpos
  constructor <;> simp <;> omega

/-- C6 (confirmed).  On an all-background buffer the tracer returns no
contours; when the only ink cell is a single pixel, the result is either
empty (a one-point contour below the minimum-length threshold, or a
pixel outside the scanned interior) or exactly one one-point contour —
never more than one region.  (The point cap must be positive, as it is
in the shipped settings, so a seeded trace can collect its seed.) -/
theorem c6_tracer_degenerate (s : OptimizationSettings) (bm : ℕ → ℕ → Bool)
    (w h : ℕ) (hmax : 1 ≤ s.maxPoints) :
    ((∀ y x, bm y x = false) → findContours s bm w h = []) ∧
    (∀ px py, (∀ y x, bm y x = true ↔ (x = px ∧ y = py)) →
      findContours s bm w h = [] ∨ findContours s bm w h = [[(px, py)]]) := by
  constructor
  · intro hall
    unfold findContours
    rw [findContours_noop s bm w h _ _ (fun pos _ => hall pos.2 pos.1)]
  · intro px py honly
    unfold findContours
    rcases c6_fold s bm w h px py honly hmax (scanPositions w h)
      ([], fun _ _ => false) (scanPositions_bounds w h) (Or.inl rfl) with hres | ⟨hres, _⟩
    · exact Or.inl hres
    · exact Or.inr hres

/-- C6, witness for `c6_tracer_degenerate`: a 3×3 map whose only ink
cell is the interior pixel `(1,1)`, with a minimum length of 1 (so the
one-point contour is kept). -/
theorem c6_witness :
    findContours ⟨0, 1, 1000, 0⟩ (fun y x => decide (x = 1 ∧ y = 1)) 3 3 = [] ∨
    findContours ⟨0, 1, 1000, 0⟩ (fun y x => decide (x = 1 ∧ y = 1)) 3 3 = [[(1, 1)]] :=
  (c6_tracer_degenerate ⟨0, 1, 1000, 0⟩ (fun y x => decide (x = 1 ∧ y = 1)) 3 3
    (by norm_num)).2 1 1 (fun y x => by simp)

/-! ## Contour smoothing (`smoothContour`) -/

/-- `smoothContour`: circular moving average with window
`min(5, ⌊len/10⌋)`.  The source's window index `j ∈ [-w, w]` with array
index `(i + j + len) % len` is reindexed by `j' = j + w ∈ [0, 2w]`,
giving `(i + j' + len - w) % len` (the subtraction never underflows
since `len ≥ 5 ≥ w`); `count = 2w + 1`. -/
def smoothContour (contour : List Point) : List Point :=
  if contour.length < 5 then contour
  else
    let w := min 5 (contour.length / 10)
    (List.range contour.length).map (fun i =>
      let st := (List.range (2 * w + 1)).foldl (fun acc j =>
        (acc.1 + (contour[(i + j + contour.length - w) % contour.length]!).x,
         acc.2 + (contour[(i + j + contour.length - w) % contour.length]!).y))
        ((0 : ℚ), (0 : ℚ))
      { x := st.1 / ((2 * w + 1 : ℕ) : ℚ), y := st.2 / ((2 * w + 1 : ℕ) : ℚ) })

/-- The spec's description of the smoothing window: the average of the
input points at indices `i−w .. i+w` taken modulo the sequence
length. -/
def movingAverageSpec (pts : List Point) (w i : ℕ) : Point where
  x := (∑ j in Finset.Icc (-(w : ℤ)) (w : ℤ),
      (pts[(((i : ℤ) + j) % (pts.length : ℤ)).toNat]!).x) / ((2 * w + 1 : ℕ) : ℚ)
  y := (∑ j in Finset.Icc (-(w : ℤ)) (w : ℤ),
      (pts[(((i : ℤ) + j) % (pts.length : ℤ)).toNat]!).y) / ((2 * w + 1 : ℕ) : ℚ)

theorem foldl_pair_sum (fx fy : ℕ → ℚ) :
    ∀ (l : List ℕ) (a b : ℚ),
      l.foldl (fun acc j => (acc.1 + fx j, acc.2 + fy j)) (a, b) =
        (a + (l.map fx).sum, b + (l.map fy).sum) := by
  intro l
  induction l with
  | nil => intro a b; simp
  | cons c t ih =>
    intro a b
    simp only [List.foldl_cons, List.map_cons, List.sum_cons]
    rw [ih]
    simp only [Prod.mk.injEq]
    constructor <;> ring

theorem listMapRange_sum (f : ℕ → ℚ) : ∀ (n : ℕ),
    ((List.range n).map f).sum = ∑ j in Finset.range n, f j := by
  intro n
  induction n with
  | zero => simp
  | succ m ih =>
    rw [List.range_succ, Finset.sum_range_succ, List.map_append, List.sum_append, ih]
    simp

theorem sum_Icc_reindex (w : ℕ) (g : ℤ → ℚ) :
    ∑ j in Finset.Icc (-(w : ℤ)) (w : ℤ), g j =
      ∑ j in Finset.range (2 * w + 1), g ((j : ℤ) - w) := by
  refine Finset.sum_bij' (fun j _ => (j + w).toNat) (fun j _ => (j : ℤ) - w)
    ?_ ?_ ?_ ?_ ?_
  · intro a ha
    have h := Finset.mem_Icc.mp ha
    dsimp only
    rw [Finset.mem_range]
    omega
  · intro a ha
    have h := Finset.mem_range.mp ha
    dsimp only
    rw [Finset.mem_Icc]
    omega
  · intro a ha
    have h := Finset.mem_Icc.mp ha
    dsimp only
    omega
  · intro a ha
    have h := Finset.mem_range.mp ha
    dsimp only
    omega
  · intro a ha
    have h := Finset.mem_Icc.mp ha
    dsimp only
    congr 1
    omega

/-- C7 (confirmed).  Contour smoothing preserves the length, returns
inputs of fewer than 5 points exactly unchanged, and for longer inputs
every output point is the circular window average the spec states, with
`w = min(5, ⌊len/10⌋)`. -/
theorem c7_smooth_contour (pts : List Point) :
    (smoothContour pts).length = pts.length ∧
    (pts.length < 5 → smoothContour pts = pts) ∧
    (5 ≤ pts.length → ∀ i, i < pts.length →
      (smoothContour pts)[i]! = movingAverageSpec pts (min 5 (pts.length / 10)) i) := by
  refine ⟨?_, ?_, ?_⟩
  · unfold smoothContour
    by_cases h : pts.length < 5
    · rw [if_pos h]
    · rw [if_neg h]
      simp
  · intro h
    unfold smoothContour
    rw [if_pos h]
  · intro h5 i hi
    have hnot : ¬ pts.length < 5 := by omega
    have hwle : min 5 (pts.length / 10) ≤ pts.length := by omega
    unfold smoothContour
    rw [if_neg hnot]
    rw [getElem!_pos _ i (by simpa using hi), List.getElem_map, List.getElem_range]
    rw [foldl_pair_sum]
    simp only [movingAverageSpec, Point.mk.injEq, zero_add]
    have hsum : ∀ f : Point → ℚ,
        ((List.range (2 * min 5 (pts.length / 10) + 1)).map
          (fun j => f pts[(i + j + pts.length - min 5 (pts.length / 10)) % pts.length]!)).sum =
        ∑ j in Finset.Icc (-((min 5 (pts.length / 10) : ℕ) : ℤ))
            ((min 5 (pts.length / 10) : ℕ) : ℤ),
          f pts[(((i : ℤ) + j) % (pts.length : ℤ)).toNat]! := by
      intro f
      rw [listMapRange_sum, sum_Icc_reindex]
      apply Finset.sum_congr rfl
      intro j hj
      have hjlt := Finset.mem_range.mp hj
      congr 2
      have hcast : (i : ℤ) + ((j : ℤ) - ((min 5 (pts.length / 10) : ℕ) : ℤ)) =
          ((i + j + pts.length - min 5 (pts.length / 10) : ℕ) : ℤ) - (pts.length : ℤ) := by
        push_cast
        omega
      rw [hcast, Int.emod_sub_cancel]
      rw [show ((i + j + pts.length - min 5 (pts.length / 10) : ℕ) : ℤ) %
            (pts.length : ℤ) =
          (((i + j + pts.length - min 5 (pts.length / 10)) % pts.length : ℕ) : ℤ) by
        push_cast; ring]
      rw [Int.toNat_natCast]
    exact ⟨by rw [hsum Point.x], by rw [hsum Point.y]⟩

/-- C7, witness for `c7_smooth_contour` on a 5-point contour
(window `min(5, ⌊5/10⌋) = 0`). -/
theorem c7_witness :
    (smoothContour ([⟨0, 0⟩, ⟨1, 0⟩, ⟨2, 0⟩, ⟨3, 0⟩, ⟨4, 0⟩] : List Point))[0]! =
      movingAverageSpec [⟨0, 0⟩, ⟨1, 0⟩, ⟨2, 0⟩, ⟨3, 0⟩, ⟨4, 0⟩]
        (min 5 (([⟨0, 0⟩, ⟨1, 0⟩, ⟨2, 0⟩, ⟨3, 0⟩, ⟨4, 0⟩] : List Point).length / 10)) 0 :=
  (c7_smooth_contour [⟨0, 0⟩, ⟨1, 0⟩, ⟨2, 0⟩, ⟨3, 0⟩, ⟨4, 0⟩]).2.2 (by norm_num) 0 (by norm_num)

/-! ## Curve building and vector extraction (`createSVGPath`, `extractVectorPaths`) -/

/-- One command of the generated path string, kept structured
(`M`/`L`/`Q` with their coordinates) instead of serialised. -/
inductive PathCmd where
  | move (p : Point)
  | line (p : Point)
  | quad (control endp : Point)
  deriving DecidableEq, Repr

/-- `generateSmoothPathData`: `M p₀`; exactly two points add a single
`L p₁`; otherwise each interior point contributes a `Q` with that point
as control and the midpoint to the next point as endpoint, followed by a
final `L` into the last point. -/
def generateSmoothPathData (points : List Point) : List PathCmd :=
  if points.length < 2 then []
  else if points.length = 2 then
    [PathCmd.move points[0]!, PathCmd.line points[1]!]
  else
    [PathCmd.move points[0]!] ++
      ((List.range (points.length - 2)).map (fun k =>
        PathCmd.quad points[k + 1]!
          ⟨(points[k + 1]!.x + points[k + 2]!.x) / 2,
           (points[k + 1]!.y + points[k + 2]!.y) / 2⟩)) ++
      [PathCmd.line points[points.length - 1]!]

/-- The axis-aligned bounding box `{x, y, width, height}`. -/
structure Bounds where
  x : ℚ
  y : ℚ
  width : ℚ
  height : ℚ
  deriving DecidableEq, Repr

/-- `calculateBounds`: min/max folds seeded with the first point. -/
def calculateBounds (points : List Point) : Bounds :=
  if points.length = 0 then ⟨0, 0, 0, 0⟩
  else
    let minX := points.foldl (fun m p => min m p.x) points[0]!.x
    let maxX := points.foldl (fun m p => max m p.x) points[0]!.x
    let minY := points.foldl (fun m p => min m p.y) points[0]!.y
    let maxY := points.foldl (fun m p => max m p.y) points[0]!.y
    ⟨minX, minY, maxX - minX, maxY - minY⟩

/-- A vector path: the simplified points, the structured path data and
the bounding box.  The source also stores `length`, a sum of consecutive
Euclidean distances; that sum of square roots has no rational
representative and no claim concerns it, so the embedding omits the
field. -/
structure SVGPath where
  points : List Point
  pathData : List PathCmd
  bounds : Bounds
  deriving DecidableEq, Repr

/-- `createSVGPath`: `null` below two points. -/
def createSVGPath (points : List Point) : Option SVGPath :=
  if points.length < 2 then none
  else some { points := points, pathData := generateSmoothPathData points,
              bounds := calculateBounds points }

/-- `extractVectorPaths`: binary map → contours → smooth → simplify →
curve path, keeping only non-null paths with at least 3 points (the
source's `path && path.points && path.points.length >= 3` filter).  The
tracer's integer pixel coordinates enter the rational point type
here. -/
def extractVectorPaths (s : OptimizationSettings) (img : ImageData) : List SVGPath :=
  let binaryMap := createBinaryMap img.data img.width img.height
  let contours := findContours s binaryMap img.width img.height
  let vectorPaths := contours.map (fun contour =>
    createSVGPath (simplifyPath s (smoothContour
      (contour.map (fun q => (⟨(q.1 : ℚ), (q.2 : ℚ)⟩ : Point))))))
  vectorPaths.filterMap (fun path =>
    match path with
    | none => none
    | some p => if 3 ≤ p.points.length then some p else none)

/-- C9 (confirmed).  Although `createSVGPath` can build a two-point
straight segment, the extractor's final filter drops every path with
fewer than three points, so each returned vector path has at least 3
simplified points. -/
theorem c9_extracted_paths_min_points (s : OptimizationSettings) (img : ImageData) :
    ∀ p ∈ extractVectorPaths s img, 3 ≤ p.points.length := by
  intro p hp
  unfold extractVectorPaths at hp
  rw [List.mem_filterMap] at hp
  obtain ⟨o, _, ho⟩ := hp
  match o with
  | none => cases ho
  | some q =>
    change (if 3 ≤ q.points.length then some q else none) = some p at ho
    by_cases h3 : 3 ≤ q.points.length
    · rw [if_pos h3] at ho
      injection ho with h
      subst h
      exact h3
    · rw [if_neg h3] at ho
      cases ho

/-- A 4×4 test buffer whose only ink pixels (red channel `0`) are
`(1,1)`, `(2,1)` and `(2,2)`; every other channel value is `255`. -/
def c9Image : ImageData :=
  ⟨4, 4, fun idx => if idx = 20 ∨ idx = 24 ∨ idx = 40 then 0 else 255⟩

/-- C9, witness for `c9_extracted_paths_min_points`: on `c9Image` with a
minimum contour length of 1 and tolerance 0 the extractor returns one
path with exactly three points. -/
theorem c9_witness :
    3 ≤ ((extractVectorPaths ⟨0, 1, 1000, 0⟩ c9Image).headD
      ⟨[], [], ⟨0, 0, 0, 0⟩⟩).points.length := by
  apply c9_extracted_paths_min_points ⟨0, 1, 1000, 0⟩ c9Image
  have hfc : findContours ⟨0, 1, 1000, 0⟩
      (createBinaryMap c9Image.data c9Image.width c9Image.height)
      c9Image.width c9Image.height = [[(1, 1), (2, 2), (2, 1)]] := by
    decide
  have hdp : douglasPeucker ([⟨1, 1⟩, ⟨2, 2⟩, ⟨2, 1⟩] : List Point) 0 =
      [⟨1, 1⟩, ⟨2, 2⟩, ⟨2, 1⟩] := by
    norm_num [douglasPeucker, dpAux, maxDistPair, perpendicularDistanceSq, List.range_succ]
  have hval : extractVectorPaths ⟨0, 1, 1000, 0⟩ c9Image =
      [{ points := [⟨1, 1⟩, ⟨2, 2⟩, ⟨2, 1⟩],
         pathData := generateSmoothPathData [⟨1, 1⟩, ⟨2, 2⟩, ⟨2, 1⟩],
         bounds := calculateBounds [⟨1, 1⟩, ⟨2, 2⟩, ⟨2, 1⟩] }] := by
    simp only [extractVectorPaths]
    rw [hfc]
    have hsm : smoothContour ([⟨1, 1⟩, ⟨2, 2⟩, ⟨2, 1⟩] : List Point) =
        [⟨1, 1⟩, ⟨2, 2⟩, ⟨2, 1⟩] := by
      unfold smoothContour
      rw [if_pos (by norm_num)]
    have hsp : simplifyPath ⟨0, 1, 1000, 0⟩ ([⟨1, 1⟩, ⟨2, 2⟩, ⟨2, 1⟩] : List Point) =
        [⟨1, 1⟩, ⟨2, 2⟩, ⟨2, 1⟩] := by
      unfold simplifyPath
      rw [if_neg (by norm_num)]
      exact hdp
    simp only [List.map_cons, List.map_nil, Nat.cast_one, Nat.cast_ofNat]
    rw [hsm, hsp]
    unfold createSVGPath
    rw [if_neg (by norm_num)]
    simp [List.filterMap]
  rw [hval]
  simp
